import Mathlib

/-!
Verification development for pynab's binary-reconstruction core
(`pynab/binaries.py`).  The Python source is shallowly embedded:

* database rows (`Part`, `Regex` rules, `Binary`) become Lean structures;
* the regex library is an abstract parameter (`Engine`): rule matching is
  external to the repository, but the control flow around its results is
  translated verbatim;
* the one concrete regex used by the source, the part-count fallback
  pattern, is implemented directly;
* Python exceptions (`AttributeError` from attribute access on `''`,
  `ValueError` from tuple unpacking and `int`) are modelled with `Except`,
  since nothing in `process` catches them;
* storage reads/writes performed through the session/engine objects are
  modelled as pure queries over a `DB` value plus an event trace.
-/

instance {ε α : Type} [DecidableEq ε] [DecidableEq α] : DecidableEq (Except ε α)
  | .ok a, .ok b =>
      if h : a = b then .isTrue (h ▸ rfl) else .isFalse (fun he => h (Except.ok.inj he))
  | .error a, .error b =>
      if h : a = b then .isTrue (h ▸ rfl) else .isFalse (fun he => h (Except.error.inj he))
  | .ok _, .error _ => .isFalse (fun he => Except.noConfusion he)
  | .error _, .ok _ => .isFalse (fun he => Except.noConfusion he)

namespace Pynab

/-- Python exceptions that the translated code can raise. -/
inductive PyErr where
  | attributeError
  | valueError
  deriving DecidableEq, Repr

/-- A `parts` table row.  `binary_id` is the owning-binary reference,
`none` while the part is unclaimed. -/
structure Part where
  id : Nat
  group_name : String
  subject : String
  posted : Int
  posted_by : String
  xref : String
  binary_id : Option Nat
  deriving DecidableEq, Repr

/-- A `regexes` table row: a matching rule.  `regex` is the raw
delimiter-wrapped pattern string (php style, e.g. `/pat/i`). -/
structure RegexRule where
  id : Nat
  group_name : String
  regex : String
  ordinal : Nat
  deriving DecidableEq, Repr

/-- A `binaries` table row. -/
structure BinaryRow where
  id : Nat
  name : String
  posted : Int
  posted_by : String
  group_name : String
  xref : String
  regex_id : Nat
  total_parts : Int
  deriving DecidableEq, Repr

/-- The in-memory accumulation record built by `process` for one binary
name (the dict `b` in the source).  `parts` is the Python dict from
current-index string to part, kept as an insertion-ordered assoc list. -/
structure BinRecord where
  name : String
  posted : Int
  posted_by : String
  group_name : String
  xref : String
  regex_id : Nat
  total_parts : Int
  parts : List (String × Part)
  deriving DecidableEq, Repr

/-- Database state visible to this core. -/
structure DB where
  parts : List Part
  binaries : List BinaryRow
  rules : List RegexRule
  nextBinaryId : Nat
  deriving DecidableEq, Repr

/-- Observable side effects other than the `DB` mutation itself. -/
inductive Event where
  | logError (msg : String)
  | logBrokenRegex (id : Nat)
  | removeRule (id : Nat)
  | saveCall (names : List String)
  | bulkUpdate (updates : List (Nat × Nat))
  deriving DecidableEq, Repr

/-! ### Python string primitives used by the source -/

/-- Python `str.find` for a single character: index or `-1`. -/
def pyFind (s : List Char) (c : Char) : Int :=
  match s.findIdx? (· = c) with
  | some i => (i : Int)
  | none => -1

/-- Python `str.rfind` for a single character: last index or `-1`. -/
def pyRFind (s : List Char) (c : Char) : Int :=
  match s.reverse.findIdx? (· = c) with
  | some i => (s.length - 1 - i : Int)
  | none => -1

/-- Clamp a Python slice index (negative indices count from the end). -/
def pyIndexAdj (len : Nat) (i : Int) : Nat :=
  if i < 0 then (max (i + len) 0).toNat else min i.toNat len

/-- Python slice `s[i:j]`. -/
def pySlice (s : List Char) (i j : Int) : List Char :=
  (s.take (pyIndexAdj s.length j)).drop (pyIndexAdj s.length i)

/-- Python slice `s[i:]`. -/
def pySliceFrom (s : List Char) (i : Int) : List Char :=
  s.drop (pyIndexAdj s.length i)

/-- Python's whitespace set for `str.strip()` (ASCII). -/
def pyIsSpace (c : Char) : Bool :=
  c = ' ' ∨ c = '\t' ∨ c = '\n' ∨ c = '\r' ∨ c = '\x0b' ∨ c = '\x0c'

/-- Python `str.strip()` on a character list. -/
def pyStrip (l : List Char) : List Char :=
  ((l.dropWhile pyIsSpace).reverse.dropWhile pyIsSpace).reverse

/-- Python `str.strip()`. -/
def pyStripStr (s : String) : String :=
  String.mk (pyStrip s.toList)

/-- Non-overlapping left-to-right replacement, fuelled by the remaining
length so that the recursion is structural; `fuel = l.length` never runs
out because each step consumes at least one character.  `pat` is always a
non-empty literal at every use site. -/
def replaceGo (pat repl : List Char) : Nat → List Char → List Char
  | 0, l => l
  | _ + 1, [] => []
  | n + 1, c :: rest =>
      if pat ≠ [] ∧ pat.isPrefixOf (c :: rest) then
        repl ++ replaceGo pat repl n (rest.drop (pat.length - 1))
      else
        c :: replaceGo pat repl n rest

/-- Python `s.replace(pat, repl)` for a non-empty `pat`. -/
def pyReplace (s pat repl : String) : String :=
  String.mk (replaceGo pat.toList repl.toList s.toList.length s.toList)

/-- Python `s.split(sep)` for a one-character separator: no collapsing of
adjacent separators, `''.split(sep) == ['']`. -/
def pySplitChar (sep : Char) : List Char → List (List Char)
  | [] => [[]]
  | c :: rest =>
      if c = sep then [] :: pySplitChar sep rest
      else
        match pySplitChar sep rest with
        | [] => [[c]]
        | g :: gs => (c :: g) :: gs

/-- Python `s.split(sep)` at the string level. -/
def pySplit (s : String) (sep : Char) : List String :=
  (pySplitChar sep s.toList).map String.mk

/-- Python `sep in s` / `s.find(sep) != -1` for a one-character needle. -/
def pyContainsChar (s : String) (c : Char) : Bool :=
  s.toList.contains c

/-- Digits of a numeral string as an integer value. -/
def digitsVal (l : List Char) : Int :=
  l.foldl (fun acc c => acc * 10 + ((c.toNat - '0'.toNat : Nat) : Int)) 0

/-- Python `int(s)` on a string: optional surrounding whitespace, optional
sign, at least one digit; anything else raises `ValueError`. -/
def pyInt (s : String) : Except PyErr Int :=
  match pyStrip s.toList with
  | '-' :: rest =>
      if rest ≠ [] ∧ rest.all Char.isDigit then .ok (-(digitsVal rest)) else .error .valueError
  | '+' :: rest =>
      if rest ≠ [] ∧ rest.all Char.isDigit then .ok (digitsVal rest) else .error .valueError
  | l =>
      if l ≠ [] ∧ l.all Char.isDigit then .ok (digitsVal l) else .error .valueError

/-! ### Python dict-of-captures (`match.groupdict()`) -/

/-- A groupdict: named capture groups to optionally-participating values
(`none` models Python `None` for a group that did not participate). -/
abbrev GDict := List (String × Option String)

/-- Python `d.get(k)`: `None` both for a missing key and a `None` value. -/
def dget (d : GDict) (k : String) : Option String :=
  match d.find? (fun kv => kv.1 = k) with
  | some kv => kv.2
  | none => none

/-- Python `d[k] = v`: overwrite in place, or append a new key. -/
def dset (d : GDict) (k : String) (v : Option String) : GDict :=
  if (d.find? (fun kv => kv.1 = k)).isSome then
    d.map (fun kv => if kv.1 = k then (k, v) else kv)
  else
    d ++ [(k, v)]

/-- Python truthiness of `d.get(k)`: a present, non-empty string. -/
def truthy (o : Option String) : Bool :=
  match o with
  | some s => s ≠ ""
  | none => false

/-- `{k: v.strip() for k, v in match.items()}` inside `try/except: pass`:
if any value is `None`, `.strip()` raises and the original dict is kept. -/
def stripAll (d : GDict) : GDict :=
  if d.all (fun kv => kv.2.isSome) then
    d.map (fun kv => (kv.1, kv.2.map pyStripStr))
  else d

/-! ### The concrete fallback search `regex.search('(\d{1,3}/\d{1,3})', subject)` -/

/-- Try to match `\d{1,3}/\d{1,3}` at the head of `s` with the first
group taking exactly `k` digits (greedy backtracking tries 3, 2, 1). -/
def nmAtK (s : List Char) (k : Nat) : Option (List Char) :=
  let d1 := s.take k
  if d1.length = k ∧ d1.all Char.isDigit then
    match s.drop k with
    | '/' :: rest =>
        let d2 := (rest.takeWhile Char.isDigit).take 3
        if d2.length ≥ 1 then some (d1 ++ '/' :: d2) else none
    | _ => none
  else none

/-- Match at the head of `s`, longest first group first. -/
def nmAt (s : List Char) : Option (List Char) :=
  (nmAtK s 3).orElse (fun _ => (nmAtK s 2).orElse (fun _ => nmAtK s 1))

/-- Leftmost match position. -/
def nmScan : List Char → Option (List Char)
  | [] => none
  | c :: rest =>
      match nmAt (c :: rest) with
      | some m => some m
      | none => nmScan rest

/-- `regex.search('(\d{1,3}\/\d{1,3})', subject)` returning `group(1)`. -/
def searchNM (subject : String) : Option String :=
  (nmScan subject.toList).map (fun l => String.mk l)

/-! ### The classifier (`process`'s inner rule loop) -/

/-- `(pytz.utc.localize(datetime.now()) - pytz.utc.localize(part.posted)).seconds`:
the seconds component of a `timedelta` excludes whole days, i.e. it is the
total difference modulo 86400 (floor semantics, matching `Int.emod` for a
positive modulus). -/
def tdSeconds (now posted : Int) : Int :=
  (now - posted) % 86400

/-- `timediff.seconds / 60 / 60 > 3` with Python true division.  For an
integer seconds component `s` in `[0, 86400)` the float value of
`s / 60 / 60` compares to `3` exactly as the rational `s / 3600` does, so
the comparison is exactly `10800 < s`. -/
def hoursExceeds3 (s : Int) : Bool :=
  decide (10800 < s)

/-- The abstract regex library: processed pattern, subject and
case-insensitivity flag to either an exception (broken pattern — caught by
the bare `except`) or an optional groupdict (`None` for no match). -/
abbrev Engine := String → String → Bool → Except Unit (Option GDict)

/-- The match accepted by a rule: `match['name']`, the `current` index
string, the raw `total` string (conversion by `int` happens later, at
aggregation time) and the matching rule's id. -/
structure ClassifyAccept where
  name : String
  current : String
  total : String
  regId : Nat
  deriving DecidableEq, Repr

/-- Control-flow outcome of one iteration of the rule loop. -/
inductive RuleOutcome where
  | cont
  | accept (a : ClassifyAccept)
  | crash (e : PyErr)
  deriving DecidableEq, Repr

/-- Part-count normalization (lines 143–148 of the source): if the string
lacks `/`, replace `-`, `~` and `' of '` by `/`; then strip
`[`, `]`, `(`, `)`. -/
def normalizeParts (s : String) : String :=
  let s := if !(pyContainsChar s '/') then
             pyReplace (pyReplace (pyReplace s "-" "/") "~" "/") " of " "/"
           else s
  pyReplace (pyReplace (pyReplace (pyReplace s "[" "") "]" "") "(" "") ")" ""

/-- `current, total = match['parts'].split('/')`: `ValueError` unless the
split yields exactly two fields. -/
def splitParts (s : String) : Except PyErr (String × String) :=
  match pySplit s '/' with
  | [current, total] => .ok (current, total)
  | _ => .error .valueError

/-- The php-style pattern surgery: `flags = r[r.rfind('/')+1:]`,
`r = r[r.find('/')+1 : r.rfind('/')]`, case-insensitive iff `'i' in flags`. -/
def rulePattern (raw : String) : String × Bool :=
  let l := raw.toList
  let flags := pySliceFrom l (pyRFind l '/' + 1)
  let pat := pySlice l (pyFind l '/' + 1) (pyRFind l '/')
  (String.mk pat, flags.contains 'i')

/-- One iteration of the rule loop of `process` (source lines 90–169) for
a rule that is in scope, translated verbatim.  Returns the diagnostics
emitted, the orphan names recorded, and the control-flow outcome
(`cont` = fall through to the next rule, `accept` = the `break` at line
169, `crash` = an uncaught exception). -/
def evalRuleCore (eng : Engine) (now : Int) (p : Part) (reg : RegexRule) :
    List Event × List String × RuleOutcome :=
  match eng (rulePattern reg.regex).1 p.subject (rulePattern reg.regex).2 with
  | .error _ =>
      -- `log.error('binary: broken regex detected. id: {:d}, removing...'.format(reg.id))`
      ([Event.logBrokenRegex reg.id, Event.removeRule reg.id], [], .cont)
  | .ok none => ([], [], .cont)
  | .ok (some gd) =>
      if gd = [] then ([], [], .cont)  -- `if match:` — an empty groupdict is falsy
      else
        let m := stripAll gd
        let m := if truthy (dget m "reqid") ∧ ¬ truthy (dget m "name") then
                   dset m "name" (dget m "reqid")
                 else m
        if ¬ truthy (dget m "name") then ([], [], .cont)
        else
          let m := if ¬ truthy (dget m "parts") then
                     match searchNM p.subject with
                     | some g => dset m "parts" (some g)
                     | none => m
                   else m
          let isOrphan := ¬ truthy (dget m "parts") ∧
                          hoursExceeds3 (tdSeconds now p.posted)
          let orphans := if isOrphan then [(dget m "name").getD ""] else []
          let m := if isOrphan then dset m "parts" (some "00/00") else m
          if truthy (dget m "name") ∧ truthy (dget m "parts") then
            let partsStr := (dget m "parts").getD ""
            match splitParts (normalizeParts partsStr) with
            | .error e => ([], orphans, .crash e)
            | .ok (current, total) =>
                ([], orphans, .accept ⟨(dget m "name").getD "", current, total, reg.id⟩)
          else
            ([], orphans, .cont)

/-- The per-part slot list `relevant_regex` (source line 87): an
out-of-scope rule is replaced by `''` (modelled as `none`), not filtered
out. -/
def partSlots (allRegex : List RegexRule) (p : Part) : List (Option RegexRule) :=
  allRegex.map (fun reg =>
    if reg.group_name = p.group_name ∨ reg.group_name = ".*" then some reg else none)

/-- The rule loop (`for reg in relevant_regex`).  A `none` slot crashes
with `AttributeError` at `reg.regex`; otherwise the body runs, `cont`
falls to the next rule, `accept` breaks, `crash` propagates. -/
def classifyPart (eng : Engine) (now : Int) (slots : List (Option RegexRule)) (p : Part) :
    List Event × List String × Except PyErr (Option ClassifyAccept) :=
  match slots with
  | [] => ([], [], .ok none)
  | none :: _ => ([], [], .error .attributeError)
  | some reg :: rest =>
      match evalRuleCore eng now p reg with
      | (evs, orphs, .cont) =>
          match classifyPart eng now rest p with
          | (evs1, orphs1, res) => (evs ++ evs1, orphs ++ orphs1, res)
      | (evs, orphs, .accept a) => (evs, orphs, .ok (some a))
      | (evs, orphs, .crash e) => (evs, orphs, .error e)

/-! ### The persistence committer (`save`) -/

def CHUNK_SIZE : Nat := 2000

/-- Python `dict((b.name, b) for b in rows)`: for duplicate names the last
row wins. -/
def lookupBinLast (rows : List BinaryRow) (n : String) : Option BinaryRow :=
  (rows.filter (fun b => b.name = n)).getLast?

/-- The `binary_inserts` loop of `save` (source lines 31–35): keep, in
order, the accumulation entries whose name the first query did not find. -/
def saveInserts (e1 : String → Option Nat) (bins : List (String × BinRecord)) :
    List BinRecord :=
  bins.foldl (fun acc nb => if (e1 nb.1).isSome then acc else acc ++ [nb.2]) []

/-- The `update_parts` loop of `save` (source lines 46–53): for each
accumulation entry, if the second query resolved its name, emit one
`(part id, binary id)` ownership update per attached part; otherwise log
`'something went horribly wrong'` and emit nothing for that entry. -/
def saveUpdates (e2 : String → Option Nat) (bins : List (String × BinRecord)) :
    List (Nat × Nat) × List Event :=
  bins.foldl (fun acc nb =>
    match e2 nb.1 with
    | some bid => (acc.1 ++ nb.2.parts.map (fun cp => (cp.2.id, bid)), acc.2)
    | none => (acc.1, acc.2 ++ [Event.logError "something went horribly wrong"]))
    ([], [])

/-- Materialize an accumulation record as a `binaries` row; the storage
engine assigns the fresh id. -/
def recordToRow (id : Nat) (b : BinRecord) : BinaryRow :=
  ⟨id, b.name, b.posted, b.posted_by, b.group_name, b.xref, b.regex_id, b.total_parts⟩

/-- Bulk insert: sequentially assigned fresh ids. -/
def assignIds (nextId : Nat) : List BinRecord → List BinaryRow
  | [] => []
  | b :: rest => recordToRow nextId b :: assignIds (nextId + 1) rest

/-- Apply the bulk part update: each `(part id, binary id)` pair sets
`binary_id` on the rows with that part id, in order. -/
def applyPartUpdates (parts : List Part) (updates : List (Nat × Nat)) : List Part :=
  updates.foldl (fun ps u =>
    ps.map (fun q => if q.id = u.1 then { q with binary_id := some u.2 } else q)) parts

/-- The query `db.query(Binary.id, Binary.name).filter(Binary.name.in_(keys))`
turned into a name-indexed dict. -/
def queryBinaries (rows : List BinaryRow) (names : List String) (n : String) :
    Option BinaryRow :=
  if n ∈ names then lookupBinLast rows n else none

/-- The first query of `save`, as a name-to-id dict. -/
def saveE1 (db : DB) (bins : List (String × BinRecord)) (n : String) : Option Nat :=
  (queryBinaries db.binaries (bins.map Prod.fst) n).map (fun b => b.id)

/-- The rows bulk-inserted by `save`, with their storage-assigned ids. -/
def saveNewRows (db : DB) (bins : List (String × BinRecord)) : List BinaryRow :=
  assignIds db.nextBinaryId (saveInserts (saveE1 db bins) bins)

/-- The second query of `save` (after the bulk insert), as a
name-to-id dict. -/
def saveE2 (db : DB) (bins : List (String × BinRecord)) (n : String) : Option Nat :=
  (queryBinaries (db.binaries ++ saveNewRows db bins) (bins.map Prod.fst) n).map (fun b => b.id)

/-- `save(binaries)` (source lines 15–57): first query by the
accumulation's name set, bulk-insert the missing entries, re-query, then
bulk-update part ownership from the second query's ids. -/
def save (db : DB) (bins : List (String × BinRecord)) : DB × List Event :=
  ({ db with binaries := db.binaries ++ saveNewRows db bins,
             nextBinaryId := db.nextBinaryId + (saveInserts (saveE1 db bins) bins).length,
             parts := applyPartUpdates db.parts (saveUpdates (saveE2 db bins) bins).1 },
   Event.saveCall (bins.map Prod.fst) :: (saveUpdates (saveE2 db bins) bins).2
     ++ [Event.bulkUpdate (saveUpdates (saveE2 db bins) bins).1])

/-! ### The driver loop (`process`) -/

/-- Mutable state of the part loop in `process`. -/
structure LoopState where
  db : DB
  binaries : List (String × BinRecord)
  count : Nat
  totalProcessed : Nat
  totalBinaries : Nat
  orphans : List String
  events : List Event
  deriving DecidableEq, Repr

/-- `db.query(Regex).filter(reg.id).remove()`: delete the rule row.  The
materialized `all_regex` list is unaffected (it was fetched with
`.all()`); only the stored rule set shrinks. -/
def removeRuleEvents (rules : List RegexRule) (evs : List Event) : List RegexRule :=
  evs.foldl (fun rs ev =>
    match ev with
    | Event.removeRule i => rs.filter (fun r => r.id ≠ i)
    | _ => rs) rules

/-- Python dict update `binaries[name]['parts'][current] = part` /
`binaries[name] = b`: in-place overwrite for an existing key, append for a
new one. -/
def dsetParts (d : List (String × Part)) (k : String) (p : Part) : List (String × Part) :=
  if (d.find? (fun kv => kv.1 = k)).isSome then
    d.map (fun kv => if kv.1 = k then (k, p) else kv)
  else
    d ++ [(k, p)]

/-- Aggregation (source lines 152–169): attach the part under its current
index if the name is already accumulated (last-write-wins at a duplicate
index), else create a new record — only then is `int(total)` evaluated,
and it may raise. -/
def aggregate (bins : List (String × BinRecord)) (p : Part) (a : ClassifyAccept) :
    Except PyErr (List (String × BinRecord)) :=
  if (bins.find? (fun nb => nb.1 = a.name)).isSome then
    .ok (bins.map (fun nb =>
      if nb.1 = a.name then (nb.1, { nb.2 with parts := dsetParts nb.2.parts a.current p })
      else nb))
  else
    match pyInt a.total with
    | .error e => .error e
    | .ok t =>
        .ok (bins ++ [(a.name,
          ⟨a.name, p.posted, p.posted_by, p.group_name, p.xref, a.regId, t, [(a.current, p)]⟩)])

/-- The chunk boundary check (source lines 171–175): `count` is
initialized to 0 and reset to 0 here, but the source never increments it,
so the guard `count >= CHUNK_SIZE` is translated as-is over the
never-incremented counter. -/
def chunkCheck (st : LoopState) : LoopState :=
  if st.count ≥ CHUNK_SIZE then
    { st with db := (save st.db st.binaries).1, count := 0,
              totalBinaries := st.totalBinaries + st.binaries.length,
              binaries := [], events := st.events ++ (save st.db st.binaries).2 }
  else st

/-- The bookkeeping all paths through one part-loop iteration share:
`total_processed += 1`, the classification's diagnostics and orphan
names, and the stored-rule deletions the classification signalled. -/
def partBookkeeping (eng : Engine) (now : Int) (allRegex : List RegexRule)
    (st : LoopState) (p : Part) : LoopState :=
  { st with
    totalProcessed := st.totalProcessed + 1,
    events := st.events ++ (classifyPart eng now (partSlots allRegex p) p).1,
    orphans := st.orphans ++ (classifyPart eng now (partSlots allRegex p) p).2.1,
    db := { st.db with
      rules := removeRuleEvents st.db.rules (classifyPart eng now (partSlots allRegex p) p).1 } }

/-- One iteration of the part loop of `process`. -/
def processPart (eng : Engine) (now : Int) (allRegex : List RegexRule)
    (st : LoopState) (p : Part) : Except PyErr LoopState :=
  match (classifyPart eng now (partSlots allRegex p) p).2.2 with
  | .error e => .error e
  | .ok none => .ok (chunkCheck (partBookkeeping eng now allRegex st p))
  | .ok (some a) =>
      match aggregate st.binaries p a with
      | .error e => .error e
      | .ok bins1 =>
          .ok (chunkCheck { partBookkeeping eng now allRegex st p with binaries := bins1 })

/-- The part loop itself. -/
def processParts (eng : Engine) (now : Int) (allRegex : List RegexRule) :
    List Part → LoopState → Except PyErr LoopState
  | [], st => .ok st
  | p :: rest, st =>
      match processPart eng now allRegex st p with
      | .error e => .error e
      | .ok st1 => processParts eng now allRegex rest st1

/-- `db.query(Part.group_name).group_by(Part.group_name)`: the distinct
newsgroup names over *all* parts (the query does not restrict to
unclaimed parts). -/
def relevantGroups (db : DB) : List String :=
  (db.parts.map (fun p => p.group_name)).dedup

/-- Ascending-ordinal order on rules. -/
def ordLe (a b : RegexRule) : Prop := a.ordinal ≤ b.ordinal

instance : DecidableRel ordLe := fun a b => Nat.decLe a.ordinal b.ordinal

instance : IsTotal RegexRule ordLe := ⟨fun a b => Nat.le_total a.ordinal b.ordinal⟩

instance : IsTrans RegexRule ordLe := ⟨fun _ _ _ => Nat.le_trans⟩

/-- `db.query(Regex).filter(Regex.group_name.in_(relevant_groups + ['.*'])).order_by(Regex.ordinal)`. -/
def loadedRules (db : DB) : List RegexRule :=
  List.insertionSort ordLe
    (db.rules.filter (fun r => r.group_name ∈ relevantGroups db ∨ r.group_name = ".*"))

/-- The unclaimed-part stream of `process`
(`filter(Part.group_name.in_(relevant_groups)).filter(Part.binary_id==None)`). -/
def partStream (db : DB) : List Part :=
  db.parts.filter (fun p => p.group_name ∈ relevantGroups db ∧ p.binary_id = none)

/-- Result of a completed run. -/
structure RunResult where
  db : DB
  events : List Event
  totalProcessed : Nat
  totalBinaries : Nat
  orphans : List String
  deriving DecidableEq, Repr

/-- `process()` (source lines 60–186): load groups and rules, iterate the
unclaimed parts classifying and aggregating, then flush the final
accumulation unconditionally. -/
def process (eng : Engine) (now : Int) (db : DB) : Except PyErr RunResult :=
  match processParts eng now (loadedRules db) (partStream db) ⟨db, [], 0, 0, 0, [], []⟩ with
  | .error e => .error e
  | .ok st =>
      .ok ⟨(save st.db st.binaries).1, st.events ++ (save st.db st.binaries).2,
           st.totalProcessed, st.totalBinaries + st.binaries.length, st.orphans⟩

/-- The classification outcome `process` computes for one part of `db`
(the control-flow result of the rule loop over that part's slot list). -/
def outcome (eng : Engine) (now : Int) (db : DB) (p : Part) :
    Except PyErr (Option ClassifyAccept) :=
  (classifyPart eng now (partSlots (loadedRules db) p) p).2.2

/-- `True` exactly for the `save` entry-point event. -/
def isSaveCall : Event → Bool
  | Event.saveCall _ => true
  | _ => false

/-- Modelled from the spec for comparison with `loadedRules` (the Rule
Store Reader contract, §4.1): rules whose scope is one of the distinct
newsgroup names currently holding *unclaimed* parts, or the wildcard
scope, ordered ascending by priority. -/
def specLoadedRules (db : DB) : List RegexRule :=
  List.insertionSort ordLe
    (db.rules.filter (fun r =>
      r.group_name ∈
        ((db.parts.filter (fun p => p.binary_id = none)).map (fun p => p.group_name)).dedup
      ∨ r.group_name = ".*"))

/-! ### Concrete fixtures used by examples, witnesses and counterexamples -/

/-- An engine whose patterns never match. -/
def engNoMatch : Engine := fun _ _ _ => .ok none

/-- An engine whose patterns always fail to compile. -/
def engBrokenPat : Engine := fun _ _ _ => .error ()

/-- An engine capturing only a `name` group. -/
def engNameOnly : Engine := fun _ _ _ => .ok (some [("name", some "Foo")])

/-- An engine matching every subject to the same name and part count. -/
def engSameName : Engine := fun _ _ _ => .ok (some [("name", some "n"), ("parts", some "1/2")])

/-- An engine producing the spec's `"(3 of 5)"` part-count example. -/
def engMovieOf : Engine := fun _ _ _ =>
  .ok (some [("name", some "Big.Movie.Title"), ("parts", some "(3 of 5)")])

/-- An engine producing the spec's `"[01/20]"` part-count example. -/
def engMovieBracket : Engine := fun _ _ _ =>
  .ok (some [("name", some "Big.Movie.Title"), ("parts", some "[01/20]")])

/-- An engine producing a non-numeric current index. -/
def engCountAlpha : Engine := fun _ _ _ => .ok (some [("name", some "N"), ("parts", some "xx/05")])

/-- An engine producing a non-numeric total. -/
def engCountBadTotal : Engine := fun _ _ _ => .ok (some [("name", some "N"), ("parts", some "01/xx")])

/-- An engine producing a count that splits into three fields. -/
def engCountTriple : Engine := fun _ _ _ => .ok (some [("name", some "N"), ("parts", some "1/2/3")])

/-- An engine distinguishing three patterns: `A` and `B` both yield
accepted matches (with different names), anything else yields a match
with an unusable (empty) name, which the classifier rejects. -/
def engPriority : Engine := fun pat _ _ =>
  if pat = "A" then .ok (some [("name", some "low"), ("parts", some "1/2")])
  else if pat = "B" then .ok (some [("name", some "high"), ("parts", some "1/2")])
  else .ok (some [("name", some "")])

/-- A wildcard-scoped rule. -/
def ruleWild : RegexRule := ⟨7, ".*", "/x/i", 1⟩

/-- Lower-ordinal (higher-priority) accepting rule for `engPriority`. -/
def rulePriLow : RegexRule := ⟨1, ".*", "/A/", 1⟩

/-- Higher-ordinal accepting rule for `engPriority`. -/
def rulePriHigh : RegexRule := ⟨2, ".*", "/B/", 2⟩

/-- A rule whose match `engPriority` causes to be rejected (empty name). -/
def rulePriRej : RegexRule := ⟨3, ".*", "/C/", 0⟩

/-- A rule scoped to group `"x"`. -/
def ruleScopedX : RegexRule := ⟨10, "x", "/a/", 1⟩

/-- A digit-free, count-free part in group `"g"`, posted at time 0. -/
def partPlain : Part := ⟨1, "g", "abc", 0, "u", "xr", none⟩

/-- A single-part database with only the wildcard rule. -/
def dbPlain : DB := ⟨[partPlain], [], [ruleWild], 1⟩

/-- Two unclaimed parts in groups `"x"` and `"y"` with a rule scoped to
`"x"` only. -/
def dbTwoGroups : DB :=
  ⟨[⟨1, "x", "sx", 0, "u", "xr", none⟩, ⟨2, "y", "sy", 0, "u", "xr", none⟩],
   [], [ruleScopedX], 1⟩

/-- Two unclaimed parts of group `"g"` whose subjects produce the same
name and the same current index. -/
def dbTwoSame : DB :=
  ⟨[⟨1, "g", "s1", 0, "u", "xr", none⟩, ⟨2, "g", "s2", 0, "u", "xr", none⟩],
   [], [⟨10, "g", "/a/", 1⟩], 1⟩

/-- One *claimed* part in group `"a"` and a rule scoped to `"a"`. -/
def dbClaimedOnly : DB := ⟨[⟨1, "a", "s", 0, "u", "xr", some 9⟩], [], [⟨3, "a", "/p/", 1⟩], 10⟩

/-- All parts stored inside an accumulation. -/
def flatParts (bins : List (String × BinRecord)) : List Part :=
  (bins.map (fun nb => nb.2.parts.map Prod.snd)).flatten

/-- The effect of one bulk part update on a single row (the pointwise
view of `applyPartUpdates`). -/
def updFun (updates : List (Nat × Nat)) (q : Part) : Part :=
  updates.foldl (fun q1 u => if q1.id = u.1 then { q1 with binary_id := some u.2 } else q1) q

/-- The loop invariant of `process`'s part iteration over `db0`: the
stored parts/binaries are untouched mid-loop (no chunk flush fires), the
counter stays 0, accumulation keys name their records, every accumulated
part is a processed part whose accepted match carries that record's name
and that index, and (given no duplicate (name, index) pairs) every
processed accepted part is accumulated. -/
def runInv (eng : Engine) (now : Int) (AR : List RegexRule) (db0 : DB)
    (processed : List Part) (st : LoopState) : Prop :=
  st.db.parts = db0.parts ∧
  st.db.binaries = db0.binaries ∧
  st.db.nextBinaryId = db0.nextBinaryId ∧
  st.count = 0 ∧
  (∀ nb ∈ st.binaries, nb.2.name = nb.1) ∧
  (∀ nb ∈ st.binaries, ∀ cp ∈ nb.2.parts, cp.2 ∈ processed ∧
     ∃ b, (classifyPart eng now (partSlots AR cp.2) cp.2).2.2 = .ok (some b) ∧
          b.name = nb.1 ∧ b.current = cp.1) ∧
  (∀ q ∈ processed, ∀ b, (classifyPart eng now (partSlots AR q) q).2.2 = .ok (some b) →
     q ∈ flatParts st.binaries)

/-- A single matchable part with a group-scoped rule. -/
def dbOnePart : DB := ⟨[⟨1, "g", "s1", 0, "u", "xr", none⟩], [], [⟨10, "g", "/a/", 1⟩], 1⟩

/-- The result of one run of `process` over `dbOnePart` with
`engSameName`. -/
def runOnce : RunResult :=
  ⟨⟨[⟨1, "g", "s1", 0, "u", "xr", some 1⟩],
    [⟨1, "n", 0, "u", "g", "xr", 10, 2⟩],
    [⟨10, "g", "/a/", 1⟩], 2⟩,
   [Event.saveCall ["n"], Event.bulkUpdate [(1, 1)]], 1, 1, []⟩

/-- The result of a second run of `process` over `runOnce`'s database. -/
def runTwice : RunResult :=
  ⟨⟨[⟨1, "g", "s1", 0, "u", "xr", some 1⟩],
    [⟨1, "n", 0, "u", "g", "xr", 10, 2⟩],
    [⟨10, "g", "/a/", 1⟩], 2⟩,
   [Event.saveCall [], Event.bulkUpdate []], 0, 0, []⟩

/-! ## Claim theorems -/

/-- C3 (the code at the failing input): the orphan path tests
`timediff.seconds / 60 / 60 > 3`, and `timedelta.seconds` is the
within-day component of the age.  A 25-hour-old part (age 90000 s, whose
seconds component is 3600) with a name but no part count is NOT turned
into an orphan — refuting the claim that any age exceeding 3 hours takes
the orphan path — while the claim's own examples hold: the 4-hour-old
part takes the orphan path (name recorded, part claimed via the
synthesized `"00/00"` count) and a 2-hour-old part does not. -/
theorem c3_orphan_path_age_component :
    (process engNameOnly 90000 dbPlain).map
        (fun r => (r.orphans, r.db.parts.map (fun p => p.binary_id))) = .ok ([], [none]) ∧
    (process engNameOnly 14400 dbPlain).map
        (fun r => (r.orphans, r.db.parts.map (fun p => p.binary_id))) = .ok (["Foo"], [some 1]) ∧
    (process engNameOnly 7200 dbPlain).map
        (fun r => (r.orphans, r.db.parts.map (fun p => p.binary_id))) = .ok ([], [none]) :=
  ⟨rfl, rfl, rfl⟩

/-- C4 (the code at the failing input): `relevant_regex` replaces an
out-of-scope rule by `''` instead of filtering it out, and the loop then
evaluates `''.regex`, raising `AttributeError`: with one rule scoped to
group `"x"` and an unclaimed part in group `"y"`, the whole run aborts
instead of skipping the rule. -/
theorem c4_out_of_scope_rule_aborts_run :
    process engNoMatch 0 dbTwoGroups = .error .attributeError :=
  rfl

/-- C8: part-count normalization.  `"(3 of 5)"` (no `/`, so `-`, `~` and
`' of '` are replaced by `/`, then brackets/parentheses stripped, then
split) yields current `"3"` and total `"5"` (numerically 5, and the
stored binary row carries `total_parts = 5`); `"[01/20]"` (already has
`/`, so no separator replacement) yields current `"01"` and total `"20"`
(numerically 20). -/
theorem c8_part_count_normalization :
    evalRuleCore engMovieOf 0 partPlain ruleWild
      = ([], [], .accept ⟨"Big.Movie.Title", "3", "5", 7⟩) ∧
    pyInt "5" = .ok 5 ∧
    evalRuleCore engMovieBracket 0 partPlain ruleWild
      = ([], [], .accept ⟨"Big.Movie.Title", "01", "20", 7⟩) ∧
    pyInt "20" = .ok 20 ∧
    (process engMovieOf 0 dbPlain).map
        (fun r => r.db.binaries.map (fun b => (b.name, b.total_parts)))
      = .ok [("Big.Movie.Title", 5)] :=
  ⟨rfl, rfl, rfl, rfl, rfl⟩

/-- C10 counterexample: a part-count that is still malformed after
normalization is NOT passed through — a non-numeric total (`"01/xx"`)
makes `int(total)` raise an unhandled `ValueError` and the whole run
aborts, contradicting the claim that processing completes without an
unhandled failure. -/
theorem c10_counterexample_bad_total_aborts :
    process engCountBadTotal 0 dbPlain = .error .valueError :=
  rfl

/-- C10 amended: a count string that splits into exactly two fields on
`/` with a numeric total is passed through with no validation of the
current-index (here `"xx/05"` stores the part under index `"xx"` with
total 5 and the run completes), but a count that does not split into
exactly two fields (`"1/2/3"`) raises an unhandled `ValueError` that
aborts the run. -/
theorem c10_passthrough_amended :
    evalRuleCore engCountAlpha 0 partPlain ruleWild = ([], [], .accept ⟨"N", "xx", "05", 7⟩) ∧
    (process engCountAlpha 0 dbPlain).map
        (fun r => (r.db.binaries.map (fun b => (b.name, b.total_parts)),
                   r.db.parts.map (fun p => p.binary_id)))
      = .ok ([("N", 5)], [some 1]) ∧
    process engCountTriple 0 dbPlain = .error .valueError :=
  ⟨rfl, rfl, rfl⟩

/-- C6 counterexample: two unclaimed parts whose subjects map to the same
name and the same current index.  The aggregator's last-write-wins
overwrite drops part 1, so after one run part 1 is still unclaimed; the
second run then claims it — the second run claims an additional part and
the part-to-binary assignments differ from running once, refuting the
idempotence claim as stated. -/
theorem c6_counterexample_second_run_claims_part :
    (process engSameName 0 dbTwoSame).map (fun r => r.db.parts.map (fun p => p.binary_id))
      = .ok [none, some 1] ∧
    ((process engSameName 0 dbTwoSame).bind (fun r => process engSameName 0 r.db)).map
        (fun r => r.db.parts.map (fun p => p.binary_id))
      = .ok [some 1, some 1] :=
  ⟨rfl, rfl⟩

/-- C2: for every part and every rule whose pattern the regex engine
rejects, the classifier emits the broken-regex error log and the
rule-removal signal, and then behaves exactly as it would on the
remaining rules — a compile error neither aborts the run nor stops
evaluation of later rules for this part. -/
theorem c2_broken_rule_logged_removed_continues (eng : Engine) (now : Int) (p : Part)
    (reg : RegexRule) (rest : List (Option RegexRule))
    (h : eng (rulePattern reg.regex).1 p.subject (rulePattern reg.regex).2 = .error ()) :
    classifyPart eng now (some reg :: rest) p
      = (Event.logBrokenRegex reg.id :: Event.removeRule reg.id :: (classifyPart eng now rest p).1,
         (classifyPart eng now rest p).2.1,
         (classifyPart eng now rest p).2.2) := by
  have he : evalRuleCore eng now p reg
      = ([Event.logBrokenRegex reg.id, Event.removeRule reg.id], [], .cont) := by
    simp [evalRuleCore, h]
  simp [classifyPart, he]

/-- C2 witness: a concrete engine that rejects every pattern, applied to
the wildcard rule followed by no further rules. -/
theorem c2_broken_rule_logged_removed_continues_witness :
    classifyPart engBrokenPat 0 [some ruleWild] partPlain
      = ([Event.logBrokenRegex 7, Event.removeRule 7], [], .ok none) :=
  (c2_broken_rule_logged_removed_continues engBrokenPat 0 partPlain ruleWild [] rfl).trans rfl

/-- C9 counterexample: group discovery
(`db.query(Part.group_name).group_by(...)`) does not restrict to
unclaimed parts.  With a single *claimed* part in group `"a"` and a rule
scoped to `"a"`, the run loads that rule, while the spec's contract
("groups currently holding unclaimed parts") loads no rule. -/
theorem c9_counterexample_claimed_group_rule_loaded :
    loadedRules dbClaimedOnly = [⟨3, "a", "/p/", 1⟩] ∧ specLoadedRules dbClaimedOnly = [] :=
  ⟨rfl, rfl⟩

/-- C5: first-match-wins in ascending ordinal order.  When two in-scope
rules would both produce an accepted match for the same part, evaluating
the ordinal-sorted rule list (in either presentation order) records the
lower-ordinal rule's match, with evaluation stopping there; and a rule
whose match is rejected (`cont`) merely prepends its diagnostics and
orphan records to the evaluation of the later rules, never stopping it. -/
theorem c5_first_match_wins (eng : Engine) (now : Int) (p : Part)
    (r1 r2 rej : RegexRule) (e1 e2 er : List Event) (o1 o2 orr : List String)
    (a1 a2 : ClassifyAccept)
    (h1 : evalRuleCore eng now p r1 = (e1, o1, .accept a1))
    (h2 : evalRuleCore eng now p r2 = (e2, o2, .accept a2))
    (hrej : evalRuleCore eng now p rej = (er, orr, .cont))
    (hord : r1.ordinal < r2.ordinal)
    (hs1 : r1.group_name = p.group_name ∨ r1.group_name = ".*")
    (hs2 : r2.group_name = p.group_name ∨ r2.group_name = ".*") :
    classifyPart eng now (partSlots (List.insertionSort ordLe [r2, r1]) p) p
      = (e1, o1, .ok (some a1)) ∧
    classifyPart eng now (partSlots (List.insertionSort ordLe [r1, r2]) p) p
      = (e1, o1, .ok (some a1)) ∧
    ∀ rest, classifyPart eng now (some rej :: rest) p
      = (er ++ (classifyPart eng now rest p).1,
         orr ++ (classifyPart eng now rest p).2.1,
         (classifyPart eng now rest p).2.2) := by
  have hsort1 : List.insertionSort ordLe [r2, r1] = [r1, r2] := by
    simp [List.insertionSort, List.orderedInsert, ordLe, Nat.not_le.mpr hord]
  have hsort2 : List.insertionSort ordLe [r1, r2] = [r1, r2] := by
    simp [List.insertionSort, List.orderedInsert, ordLe, Nat.le_of_lt hord]
  have hslots : partSlots [r1, r2] p = [some r1, some r2] := by
    simp [partSlots, hs1, hs2]
  refine ⟨?_, ?_, ?_⟩
  · rw [hsort1, hslots]
    simp [classifyPart, h1]
  · rw [hsort2, hslots]
    simp [classifyPart, h1]
  · intro rest
    simp [classifyPart, hrej]

/-- C5 witness: `engPriority` with its two accepting rules (ordinals 1
and 2) and its rejected rule, at a concrete part. -/
theorem c5_first_match_wins_witness :
    classifyPart engPriority 0
        (partSlots (List.insertionSort ordLe [rulePriHigh, rulePriLow]) partPlain) partPlain
      = ([], [], .ok (some ⟨"low", "1", "2", 1⟩)) ∧
    classifyPart engPriority 0
        (partSlots (List.insertionSort ordLe [rulePriLow, rulePriHigh]) partPlain) partPlain
      = ([], [], .ok (some ⟨"low", "1", "2", 1⟩)) ∧
    classifyPart engPriority 0 (some rulePriRej :: [some rulePriHigh]) partPlain
      = ([] ++ (classifyPart engPriority 0 [some rulePriHigh] partPlain).1,
         [] ++ (classifyPart engPriority 0 [some rulePriHigh] partPlain).2.1,
         (classifyPart engPriority 0 [some rulePriHigh] partPlain).2.2) := by
  have h := c5_first_match_wins engPriority 0 partPlain rulePriLow rulePriHigh rulePriRej
    [] [] [] [] [] [] ⟨"low", "1", "2", 1⟩ ⟨"high", "1", "2", 2⟩
    rfl rfl rfl (by decide) (Or.inr rfl) (Or.inr rfl)
  exact ⟨h.1, h.2.1, h.2.2 [some rulePriHigh]⟩

/-- Accumulator-generalized form of the `binary_inserts` loop. -/
theorem saveInserts_foldl (e1 : String → Option Nat) (bins : List (String × BinRecord)) :
    ∀ acc, bins.foldl (fun acc nb => if (e1 nb.1).isSome then acc else acc ++ [nb.2]) acc
      = acc ++ (bins.filter (fun nb => (e1 nb.1).isNone)).map (fun nb => nb.2) := by
  induction bins with
  | nil => intro acc; simp
  | cons nb rest ih =>
      intro acc
      cases he : e1 nb.1 with
      | none => simp [he, ih]
      | some v => simp [he, ih]

/-- Accumulator-generalized form of the `update_parts` loop. -/
theorem saveUpdates_foldl (e2 : String → Option Nat) (bins : List (String × BinRecord)) :
    ∀ us es, bins.foldl (fun acc nb =>
        match e2 nb.1 with
        | some bid => (acc.1 ++ nb.2.parts.map (fun cp => (cp.2.id, bid)), acc.2)
        | none => (acc.1, acc.2 ++ [Event.logError "something went horribly wrong"])) (us, es)
      = (us ++ (bins.map (fun nb =>
            match e2 nb.1 with
            | some bid => nb.2.parts.map (fun cp => (cp.2.id, bid))
            | none => [])).flatten,
         es ++ (bins.filter (fun nb => (e2 nb.1).isNone)).map
            (fun _ => Event.logError "something went horribly wrong")) := by
  induction bins with
  | nil => intro us es; simp
  | cons nb rest ih =>
      intro us es
      cases he : e2 nb.1 with
      | none => simp [he, ih]
      | some bid => simp [he, ih]

/-- C7: the Persistence Committer's two-phase protocol, for an arbitrary
first-query result `e1` and second-query result `e2` (in `save` these are
instantiated with `saveE1` and `saveE2`, the name-set queries before and
after the bulk insert).  (1) the bulk insert contains exactly the
accumulation entries whose name the first query did not find, in order;
(2) the emitted part-ownership updates are exactly, for each entry whose
name the second query resolved, one update per attached part carrying the
resolved binary id — an id is always obtained from the second query's
`some`, never a null; (3) entries whose name is still unresolved after
the second query contribute no part update and instead one error-level
diagnostic each. -/
theorem c7_save_two_phase (e1 e2 : String → Option Nat) (bins : List (String × BinRecord)) :
    saveInserts e1 bins = (bins.filter (fun nb => (e1 nb.1).isNone)).map (fun nb => nb.2) ∧
    (saveUpdates e2 bins).1 = (bins.map (fun nb =>
        match e2 nb.1 with
        | some bid => nb.2.parts.map (fun cp => (cp.2.id, bid))
        | none => [])).flatten ∧
    (saveUpdates e2 bins).2 = (bins.filter (fun nb => (e2 nb.1).isNone)).map
        (fun _ => Event.logError "something went horribly wrong") := by
  refine ⟨?_, ?_, ?_⟩
  · simpa using saveInserts_foldl e1 bins []
  · have h := saveUpdates_foldl e2 bins [] []
    simp only [saveUpdates, h, List.nil_append]
  · have h := saveUpdates_foldl e2 bins [] []
    simp only [saveUpdates, h, List.nil_append]

/-- Either a rule evaluation emits no diagnostics, or (exactly on engine
failure) the broken-regex log followed by the removal signal. -/
theorem evalRuleCore_events (eng : Engine) (now : Int) (p : Part) (reg : RegexRule) :
    (evalRuleCore eng now p reg).1 = []
    ∨ (evalRuleCore eng now p reg).1 = [Event.logBrokenRegex reg.id, Event.removeRule reg.id] := by
  unfold evalRuleCore
  rcases he : eng (rulePattern reg.regex).1 p.subject (rulePattern reg.regex).2 with u | og
  · right; rfl
  · rcases og with _ | gd
    · left; rfl
    · left
      dsimp only
      repeat' split
      all_goals rfl

/-- The classifier never emits a `save` entry-point event. -/
theorem classifyPart_no_saveCall (eng : Engine) (now : Int) (p : Part) :
    ∀ slots, ∀ ev ∈ (classifyPart eng now slots p).1, isSaveCall ev = false := by
  intro slots
  induction slots with
  | nil => intro ev hev; simp [classifyPart] at hev
  | cons s rest ih =>
      intro ev hev
      cases s with
      | none => simp [classifyPart] at hev
      | some reg =>
          rcases hev0 : evalRuleCore eng now p reg with ⟨evs, orphs, out⟩
          have hevs : ∀ e ∈ evs, isSaveCall e = false := by
            intro e he
            rcases evalRuleCore_events eng now p reg with h | h <;> rw [hev0] at h <;>
              simp only [] at h <;> rw [h] at he
            · simp at he
            · simp at he
              rcases he with he' | he' <;> simp [he', isSaveCall]
          cases out with
          | cont =>
              simp only [classifyPart, hev0] at hev
              rcases hcl : classifyPart eng now rest p with ⟨evs1, orphs1, res⟩
              rw [hcl] at hev
              simp at hev
              rcases hev with h | h
              · exact hevs ev h
              · exact ih ev (by rw [hcl]; exact h)
          | accept a =>
              simp only [classifyPart, hev0] at hev
              exact hevs ev hev
          | crash e =>
              simp only [classifyPart, hev0] at hev
              exact hevs ev hev

/-- With the counter at 0 (it is never incremented), the chunk-boundary
check is the identity. -/
theorem chunkCheck_id (st : LoopState) (h : st.count = 0) : chunkCheck st = st := by
  unfold chunkCheck
  rw [h]
  simp [CHUNK_SIZE]

/-- A part whose classification falls through every rule only performs
the shared bookkeeping. -/
theorem processPart_ok_none (eng : Engine) (now : Int) (AR : List RegexRule)
    (st : LoopState) (p : Part)
    (h : (classifyPart eng now (partSlots AR p) p).2.2 = .ok none) (hc : st.count = 0) :
    processPart eng now AR st p = .ok (partBookkeeping eng now AR st p) := by
  simp only [processPart, h]
  rw [chunkCheck_id _ (by simpa [partBookkeeping] using hc)]

/-- A part with an accepted match performs the bookkeeping and replaces
the accumulation with the aggregation result. -/
theorem processPart_ok_some (eng : Engine) (now : Int) (AR : List RegexRule)
    (st : LoopState) (p : Part) (a : ClassifyAccept) (bins1 : List (String × BinRecord))
    (h : (classifyPart eng now (partSlots AR p) p).2.2 = .ok (some a))
    (hagg : aggregate st.binaries p a = .ok bins1) (hc : st.count = 0) :
    processPart eng now AR st p
      = .ok { partBookkeeping eng now AR st p with binaries := bins1 } := by
  simp only [processPart, h, hagg]
  rw [chunkCheck_id _ (by simpa [partBookkeeping] using hc)]

/-- A classification exception propagates out of the part loop. -/
theorem processPart_classify_error (eng : Engine) (now : Int) (AR : List RegexRule)
    (st : LoopState) (p : Part) (e : PyErr)
    (h : (classifyPart eng now (partSlots AR p) p).2.2 = .error e) :
    processPart eng now AR st p = .error e := by
  simp only [processPart, h]

/-- One successful loop iteration keeps the counter at 0 and appends only
the classification's diagnostics to the event trace. -/
theorem processPart_count (eng : Engine) (now : Int) (AR : List RegexRule)
    (st st1 : LoopState) (p : Part)
    (h : processPart eng now AR st p = .ok st1) (hc : st.count = 0) :
    st1.count = 0 ∧ st1.events = st.events ++ (classifyPart eng now (partSlots AR p) p).1 := by
  rcases hres : (classifyPart eng now (partSlots AR p) p).2.2 with e | oa
  · rw [processPart_classify_error eng now AR st p e hres] at h
    exact absurd h (by simp)
  · cases oa with
    | none =>
        rw [processPart_ok_none eng now AR st p hres hc] at h
        injection h with h2
        subst h2
        exact ⟨hc, rfl⟩
    | some a =>
        rcases hagg : aggregate st.binaries p a with e | bins1
        · simp only [processPart, hres, hagg] at h
          exact absurd h (by simp)
        · rw [processPart_ok_some eng now AR st p a bins1 hres hagg hc] at h
          injection h with h2
          subst h2
          exact ⟨hc, rfl⟩

/-- Through any successful prefix of the part loop the counter stays 0
and no `save` entry-point event is ever emitted. -/
theorem processParts_count (eng : Engine) (now : Int) (AR : List RegexRule) :
    ∀ ps (st st1 : LoopState), processParts eng now AR ps st = .ok st1 → st.count = 0 →
      (∀ ev ∈ st.events, isSaveCall ev = false) →
      st1.count = 0 ∧ (∀ ev ∈ st1.events, isSaveCall ev = false) := by
  intro ps
  induction ps with
  | nil =>
      intro st st1 h hc he
      unfold processParts at h
      injection h with h2
      subst h2
      exact ⟨hc, he⟩
  | cons p rest ih =>
      intro st st1 h hc he
      unfold processParts at h
      rcases hp : processPart eng now AR st p with e | st2 <;> rw [hp] at h
      · exact absurd h (by simp)
      · obtain ⟨hc2, hev2⟩ := processPart_count eng now AR st st2 p hp hc
        refine ih st2 st1 h hc2 ?_
        intro ev hev
        rw [hev2] at hev
        rcases List.mem_append.mp hev with h' | h'
        · exact he ev h'
        · exact classifyPart_no_saveCall eng now p _ ev h'

/-- The error-diagnostic component of the `update_parts` loop. -/
theorem saveUpdates_snd (e2 : String → Option Nat) (bins : List (String × BinRecord)) :
    (saveUpdates e2 bins).2 = (bins.filter (fun nb => (e2 nb.1).isNone)).map
      (fun _ => Event.logError "something went horribly wrong") := by
  have h := saveUpdates_foldl e2 bins [] []
  simp only [saveUpdates, h, List.nil_append]

/-- The update component of the `update_parts` loop. -/
theorem saveUpdates_fst (e2 : String → Option Nat) (bins : List (String × BinRecord)) :
    (saveUpdates e2 bins).1 = (bins.map (fun nb =>
      match e2 nb.1 with
      | some bid => nb.2.parts.map (fun cp => (cp.2.id, bid))
      | none => [])).flatten := by
  have h := saveUpdates_foldl e2 bins [] []
  simp only [saveUpdates, h, List.nil_append]

/-- Event lists free of the `save` entry-point event filter to nothing. -/
theorem filterSave_nil (l : List Event) (h : ∀ ev ∈ l, isSaveCall ev = false) :
    l.filter isSaveCall = [] := by
  induction l with
  | nil => rfl
  | cons a t ih =>
      have ha : isSaveCall a = false := h a (List.mem_cons_self a t)
      have ht : ∀ ev ∈ t, isSaveCall ev = false := fun ev hev => h ev (List.mem_cons_of_mem a hev)
      simp [List.filter_cons, ha, ih ht]

/-- C1 (the code, against the claim's chunk policy): in EVERY completed
run, `save` is invoked exactly once — the unconditional final flush.  The
chunk counter is initialized and reset but never incremented, so the
`count >= CHUNK_SIZE` branch never fires; in particular a backlog of 4500
matchable parts yields 1 invocation of `save`, not the 3 the claim
requires. -/
theorem c1_save_called_exactly_once (eng : Engine) (now : Int) (db : DB) (r : RunResult)
    (h : process eng now db = .ok r) :
    (r.events.filter isSaveCall).length = 1 := by
  unfold process at h
  rcases hp : processParts eng now (loadedRules db) (partStream db) ⟨db, [], 0, 0, 0, [], []⟩
    with e | st <;> rw [hp] at h
  · exact absurd h (by simp)
  · injection h with h2
    subst h2
    obtain ⟨-, hev⟩ := processParts_count eng now (loadedRules db) (partStream db)
      ⟨db, [], 0, 0, 0, [], []⟩ st hp rfl (by intro ev hev; simp at hev)
    have h1 : st.events.filter isSaveCall = [] := filterSave_nil st.events hev
    have herrs : ∀ ev ∈ (saveUpdates (saveE2 st.db st.binaries) st.binaries).2,
        isSaveCall ev = false := by
      intro ev hev'
      rw [saveUpdates_snd, List.mem_map] at hev'
      obtain ⟨x, hx, hxe⟩ := hev'
      rw [← hxe]
      rfl
    dsimp only
    rw [List.filter_append, h1]
    simp [save, List.filter_cons, List.filter_append, isSaveCall,
      filterSave_nil _ herrs]

/-- C1 witness: the empty backlog, whose completed run carries exactly
the one final `save` invocation. -/
theorem c1_save_called_exactly_once_witness :
    process engNoMatch 0 ⟨[], [], [], 0⟩
      = .ok ⟨⟨[], [], [], 0⟩, [Event.saveCall [], Event.bulkUpdate []], 0, 0, []⟩ ∧
    (((⟨⟨[], [], [], 0⟩, [Event.saveCall [], Event.bulkUpdate []], 0, 0, []⟩ : RunResult)).events.filter
        isSaveCall).length = 1 :=
  ⟨rfl, c1_save_called_exactly_once engNoMatch 0 ⟨[], [], [], 0⟩ _ rfl⟩

/-- C9 amended: the rules loaded for a run are exactly those whose scope
is one of the distinct newsgroup names holding *any* parts (claimed or
unclaimed) or the wildcard scope, ordered ascending by priority ordinal;
loading computes a pure function of the database state. -/
theorem c9_loaded_rules_amended (db : DB) :
    (∀ r, r ∈ loadedRules db ↔
      (r ∈ db.rules ∧ (r.group_name ∈ relevantGroups db ∨ r.group_name = ".*"))) ∧
    (loadedRules db).Sorted ordLe := by
  constructor
  · intro r
    unfold loadedRules
    rw [(List.perm_insertionSort ordLe _).mem_iff, List.mem_filter]
    simp
  · exact List.sorted_insertionSort ordLe _

theorem applyPartUpdates_map (U : List (Nat × Nat)) :
    ∀ parts : List Part, applyPartUpdates parts U = parts.map (updFun U) := by
  induction U with
  | nil =>
      intro parts
      rw [show updFun ([] : List (Nat × Nat)) = fun q => q from funext (fun q => rfl),
        List.map_id']
      rfl
  | cons u U ih =>
      intro parts
      have h1 : applyPartUpdates parts (u :: U)
          = applyPartUpdates (parts.map (fun q =>
              if q.id = u.1 then { q with binary_id := some u.2 } else q)) U := rfl
      rw [h1, ih, List.map_map]
      rfl

theorem updFun_id_of_not_mem (U : List (Nat × Nat)) :
    ∀ q : Part, q.id ∉ U.map Prod.fst → updFun U q = q := by
  induction U with
  | nil => intro q _; rfl
  | cons u U ih =>
      intro q hq
      rw [List.map_cons] at hq
      have hne : q.id ≠ u.1 := fun he => hq (he ▸ List.mem_cons_self _ _)
      have hnm : q.id ∉ U.map Prod.fst := fun hm => hq (List.mem_cons_of_mem _ hm)
      have h1 : updFun (u :: U) q = updFun U (if q.id = u.1 then { q with binary_id := some u.2 } else q) := rfl
      rw [h1, if_neg hne]
      exact ih q hnm

theorem updFun_fields (U : List (Nat × Nat)) :
    ∀ q : Part, ∃ ob, updFun U q = { q with binary_id := ob } := by
  induction U with
  | nil => intro q; exact ⟨q.binary_id, rfl⟩
  | cons u U ih =>
      intro q
      have h1 : updFun (u :: U) q = updFun U (if q.id = u.1 then { q with binary_id := some u.2 } else q) := rfl
      by_cases hc : q.id = u.1
      · obtain ⟨ob, hob⟩ := ih { q with binary_id := some u.2 }
        exact ⟨ob, by rw [h1, if_pos hc, hob]⟩
      · obtain ⟨ob, hob⟩ := ih q
        exact ⟨ob, by rw [h1, if_neg hc, hob]⟩

theorem updFun_isSome_mono (U : List (Nat × Nat)) :
    ∀ q : Part, q.binary_id.isSome → (updFun U q).binary_id.isSome := by
  induction U with
  | nil => intro q h; exact h
  | cons u U ih =>
      intro q h
      have h1 : updFun (u :: U) q = updFun U (if q.id = u.1 then { q with binary_id := some u.2 } else q) := rfl
      rw [h1]
      by_cases hc : q.id = u.1
      · rw [if_pos hc]; exact ih _ (by simp)
      · rw [if_neg hc]; exact ih _ h

theorem updFun_isSome_of_mem (U : List (Nat × Nat)) :
    ∀ q : Part, ∀ bid, (q.id, bid) ∈ U → (updFun U q).binary_id.isSome := by
  induction U with
  | nil => intro q bid h; simp at h
  | cons u U ih =>
      intro q bid h
      have h1 : updFun (u :: U) q = updFun U (if q.id = u.1 then { q with binary_id := some u.2 } else q) := rfl
      rw [h1]
      rcases List.mem_cons.mp h with he | ht
      · rw [if_pos (by rw [← he])]
        exact updFun_isSome_mono U _ (by simp)
      · by_cases hc : q.id = u.1
        · rw [if_pos hc]
          exact updFun_isSome_mono U _ (by simp)
        · rw [if_neg hc]
          exact ih q bid ht

theorem updFun_none_eq (U : List (Nat × Nat)) (q : Part)
    (h : (updFun U q).binary_id = none) : updFun U q = q := by
  obtain ⟨ob, hob⟩ := updFun_fields U q
  rw [hob] at h ⊢
  simp at h
  subst h
  cases hq : q.binary_id with
  | none => cases q; simp_all
  | some b =>
      exfalso
      have := updFun_isSome_mono U q (by simp [hq])
      rw [hob] at this
      simp at this

theorem updFun_group (U : List (Nat × Nat)) (q : Part) :
    (updFun U q).group_name = q.group_name := by
  obtain ⟨ob, hob⟩ := updFun_fields U q
  rw [hob]

theorem updFun_id_eq (U : List (Nat × Nat)) (q : Part) : (updFun U q).id = q.id := by
  obtain ⟨ob, hob⟩ := updFun_fields U q
  rw [hob]



theorem lookupBinLast_isSome_iff (rows : List BinaryRow) (n : String) :
    (lookupBinLast rows n).isSome ↔ ∃ b ∈ rows, b.name = n := by
  unfold lookupBinLast
  rw [List.getLast?_isSome]
  constructor
  · intro h
    rcases List.exists_mem_of_ne_nil _ h with ⟨b, hb⟩
    have := List.mem_filter.mp hb
    exact ⟨b, this.1, by simpa using this.2⟩
  · intro ⟨b, hb, hn⟩
    intro hnil
    have : b ∈ rows.filter (fun b => b.name = n) := List.mem_filter.mpr ⟨hb, by simpa using hn⟩
    rw [hnil] at this
    simp at this

theorem assignIds_names (l : List BinRecord) :
    ∀ k, (assignIds k l).map (fun b => b.name) = l.map (fun b => b.name) := by
  induction l with
  | nil => intro k; rfl
  | cons b rest ih => intro k; simp [assignIds, recordToRow, ih]

theorem saveInserts_eq (e1 : String → Option Nat) (bins : List (String × BinRecord)) :
    saveInserts e1 bins = (bins.filter (fun nb => (e1 nb.1).isNone)).map (fun nb => nb.2) := by
  simpa using saveInserts_foldl e1 bins []

theorem saveE2_resolves (dbx : DB) (bins : List (String × BinRecord))
    (hwf : ∀ nb ∈ bins, nb.2.name = nb.1) :
    ∀ nb ∈ bins, (saveE2 dbx bins nb.1).isSome := by
  intro nb hnb
  have hnmem : nb.1 ∈ bins.map Prod.fst := List.mem_map.mpr ⟨nb, hnb, rfl⟩
  unfold saveE2 queryBinaries
  rw [if_pos hnmem]
  have hs : (lookupBinLast (dbx.binaries ++ saveNewRows dbx bins) nb.1).isSome := by
    rw [lookupBinLast_isSome_iff]
    by_cases hex : ∃ b ∈ dbx.binaries, b.name = nb.1
    · obtain ⟨b, hb, hn⟩ := hex
      exact ⟨b, List.mem_append_left _ hb, hn⟩
    · have he1 : saveE1 dbx bins nb.1 = none := by
        unfold saveE1 queryBinaries
        rw [if_pos hnmem]
        cases hl : lookupBinLast dbx.binaries nb.1 with
        | none => rfl
        | some b =>
            exfalso
            exact hex ((lookupBinLast_isSome_iff dbx.binaries nb.1).mp (by simp [hl]))
      have hmem : nb.2 ∈ saveInserts (saveE1 dbx bins) bins := by
        rw [saveInserts_eq]
        exact List.mem_map.mpr ⟨nb, List.mem_filter.mpr ⟨hnb, by simp [he1]⟩, rfl⟩
      have hname : nb.2.name ∈ (saveNewRows dbx bins).map (fun b => b.name) := by
        unfold saveNewRows
        rw [assignIds_names]
        exact List.mem_map.mpr ⟨nb.2, hmem, rfl⟩
      obtain ⟨row, hrow, hrn⟩ := List.mem_map.mp hname
      exact ⟨row, List.mem_append_right _ hrow, by rw [hrn, hwf nb hnb]⟩
  cases hl : lookupBinLast (dbx.binaries ++ saveNewRows dbx bins) nb.1 with
  | none => rw [hl] at hs; simp at hs
  | some b => rfl

theorem save_parts_eq (dbx : DB) (bins : List (String × BinRecord)) :
    (save dbx bins).1.parts = dbx.parts.map (updFun (saveUpdates (saveE2 dbx bins) bins).1) := by
  show applyPartUpdates dbx.parts (saveUpdates (saveE2 dbx bins) bins).1 = _
  rw [applyPartUpdates_map]

theorem save_rules_eq (dbx : DB) (bins : List (String × BinRecord)) :
    (save dbx bins).1.rules = dbx.rules := rfl

theorem save_updates_cover (dbx : DB) (bins : List (String × BinRecord))
    (hwf : ∀ nb ∈ bins, nb.2.name = nb.1) :
    ∀ q ∈ flatParts bins, ∃ bid, (q.id, bid) ∈ (saveUpdates (saveE2 dbx bins) bins).1 := by
  intro q hq
  unfold flatParts at hq
  rw [List.mem_flatten] at hq
  obtain ⟨blk, hblk, hqblk⟩ := hq
  obtain ⟨nb, hnb, hblke⟩ := List.mem_map.mp hblk
  rw [← hblke] at hqblk
  obtain ⟨cp, hcp, hcpe⟩ := List.mem_map.mp hqblk
  obtain ⟨bid, hbid⟩ := Option.isSome_iff_exists.mp (saveE2_resolves dbx bins hwf nb hnb)
  refine ⟨bid, ?_⟩
  rw [saveUpdates_fst, List.mem_flatten]
  refine ⟨nb.2.parts.map (fun cp => (cp.2.id, bid)), ?_, ?_⟩
  · refine List.mem_map.mpr ⟨nb, hnb, ?_⟩
    rw [hbid]
  · exact List.mem_map.mpr ⟨cp, hcp, by rw [hcpe]⟩

theorem save_updates_domain (dbx : DB) (bins : List (String × BinRecord)) :
    ∀ pid bid, (pid, bid) ∈ (saveUpdates (saveE2 dbx bins) bins).1 →
      ∃ nb ∈ bins, ∃ cp ∈ nb.2.parts, cp.2.id = pid := by
  intro pid bid h
  rw [saveUpdates_fst, List.mem_flatten] at h
  obtain ⟨blk, hblk, hpblk⟩ := h
  obtain ⟨nb, hnb, hblke⟩ := List.mem_map.mp hblk
  rcases he2 : saveE2 dbx bins nb.1 with _ | b
  · rw [he2] at hblke
    rw [← hblke] at hpblk
    simp at hpblk
  · rw [he2] at hblke
    rw [← hblke] at hpblk
    obtain ⟨cp, hcp, hcpe⟩ := List.mem_map.mp hpblk
    exact ⟨nb, hnb, cp, hcp, by injection hcpe⟩

theorem save_nil (dbx : DB) : (save dbx []).1 = dbx := by
  have h : (save dbx []).1
      = { dbx with binaries := dbx.binaries ++ [],
                   nextBinaryId := dbx.nextBinaryId + 0,
                   parts := dbx.parts } := rfl
  rw [h]
  cases dbx
  simp



theorem loadedRules_mem (dbx : DB) (r : RegexRule) :
    r ∈ loadedRules dbx ↔
      (r ∈ dbx.rules ∧ (r.group_name ∈ relevantGroups dbx ∨ r.group_name = ".*")) := by
  unfold loadedRules
  rw [(List.perm_insertionSort ordLe _).mem_iff, List.mem_filter]
  simp

theorem classify_none_all_cont (eng : Engine) (now : Int) (p : Part) :
    ∀ slots es os, classifyPart eng now slots p = (es, os, .ok none) →
      ∀ s ∈ slots, ∃ r ev orph, s = some r ∧ evalRuleCore eng now p r = (ev, orph, .cont) := by
  intro slots
  induction slots with
  | nil => intro es os h s hs; simp at hs
  | cons s0 rest ih =>
      intro es os h s hs
      cases s0 with
      | none =>
          exfalso
          simp only [classifyPart] at h
          have := congrArg (fun t => t.2.2) h
          simp at this
      | some reg =>
          rcases he : evalRuleCore eng now p reg with ⟨ev, orph, out⟩
          cases out with
          | cont =>
              simp only [classifyPart, he] at h
              rcases hcl : classifyPart eng now rest p with ⟨e1, o1, res1⟩
              rw [hcl] at h
              have hres : res1 = .ok none := by
                have := congrArg (fun t => t.2.2) h
                simpa using this
              rcases List.mem_cons.mp hs with hh | ht
              · exact ⟨reg, ev, orph, hh, he⟩
              · exact ih e1 o1 (by rw [hcl, hres]) s ht
          | accept a =>
              exfalso
              simp only [classifyPart, he] at h
              have := congrArg (fun t => t.2.2) h
              simp at this
          | crash e =>
              exfalso
              simp only [classifyPart, he] at h
              have := congrArg (fun t => t.2.2) h
              simp at this

theorem classify_all_cont_none (eng : Engine) (now : Int) (p : Part) :
    ∀ slots, (∀ s ∈ slots, ∃ r ev orph, s = some r ∧ evalRuleCore eng now p r = (ev, orph, .cont)) →
      (classifyPart eng now slots p).2.2 = .ok none := by
  intro slots
  induction slots with
  | nil => intro _; rfl
  | cons s0 rest ih =>
      intro h
      obtain ⟨r, ev, orph, hs, he⟩ := h s0 (List.mem_cons_self _ _)
      subst hs
      simp only [classifyPart, he]
      rcases hcl : classifyPart eng now rest p with ⟨e1, o1, res1⟩
      have := ih (fun s hs => h s (List.mem_cons_of_mem _ hs))
      rw [hcl] at this
      simpa using this

theorem mem_relevantGroups_self (dbx : DB) : ∀ p ∈ dbx.parts, p.group_name ∈ relevantGroups dbx := by
  intro p hp
  unfold relevantGroups
  rw [List.mem_dedup]
  exact List.mem_map.mpr ⟨p, hp, rfl⟩

theorem partStream_mem (dbx : DB) (p : Part) :
    p ∈ partStream dbx ↔ p ∈ dbx.parts ∧ p.binary_id = none := by
  unfold partStream
  rw [List.mem_filter]
  constructor
  · intro ⟨h1, h2⟩
    simp at h2
    exact ⟨h1, h2.2⟩
  · intro ⟨h1, h2⟩
    refine ⟨h1, ?_⟩
    simp [h2]
    exact mem_relevantGroups_self dbx p h1

theorem removeRuleEvents_subset (evs : List Event) :
    ∀ rules, ∀ r ∈ removeRuleEvents rules evs, r ∈ rules := by
  induction evs with
  | nil => intro rules r h; exact h
  | cons ev rest ih =>
      intro rules r h
      unfold removeRuleEvents at h
      rw [List.foldl_cons] at h
      have := ih _ r h
      cases ev with
      | removeRule i => exact List.mem_of_mem_filter this
      | logError m => exact this
      | logBrokenRegex i => exact this
      | saveCall ns => exact this
      | bulkUpdate us => exact this

theorem processParts_no_error (eng : Engine) (now : Int) (AR : List RegexRule) :
    ∀ ps st st1, processParts eng now AR ps st = .ok st1 →
      ∀ p ∈ ps, ∀ e, (classifyPart eng now (partSlots AR p) p).2.2 ≠ .error e := by
  intro ps
  induction ps with
  | nil => intro st st1 h p hp; simp at hp
  | cons p0 rest ih =>
      intro st st1 h p hp e hcl
      unfold processParts at h
      rcases hpp : processPart eng now AR st p0 with e1 | st2 <;> rw [hpp] at h
      · exact absurd h (by simp)
      · rcases List.mem_cons.mp hp with hh | ht
        · subst hh
          rw [processPart_classify_error eng now AR st p e hcl] at hpp
          exact absurd hpp (by simp)
        · exact ih st2 st1 h p ht e hcl

theorem processParts_all_none (eng : Engine) (now : Int) (AR : List RegexRule) :
    ∀ ps st, (∀ p ∈ ps, (classifyPart eng now (partSlots AR p) p).2.2 = .ok none) →
      st.count = 0 →
      ∃ st1, processParts eng now AR ps st = .ok st1 ∧ st1.binaries = st.binaries ∧
        st1.db.parts = st.db.parts ∧ st1.db.binaries = st.db.binaries ∧
        st1.db.nextBinaryId = st.db.nextBinaryId ∧ st1.count = 0 := by
  intro ps
  induction ps with
  | nil =>
      intro st h hc
      exact ⟨st, rfl, rfl, rfl, rfl, rfl, hc⟩
  | cons p rest ih =>
      intro st h hc
      have hp := h p (List.mem_cons_self _ _)
      have hstep := processPart_ok_none eng now AR st p hp hc
      obtain ⟨st1, hrun, hb, hdp, hdb, hdn, hc1⟩ :=
        ih (partBookkeeping eng now AR st p)
          (fun q hq => h q (List.mem_cons_of_mem _ hq)) (by simpa [partBookkeeping] using hc)
      refine ⟨st1, ?_, ?_, ?_, ?_, ?_, hc1⟩
      · unfold processParts
        rw [hstep]
        exact hrun
      · rw [hb]; rfl
      · rw [hdp]; rfl
      · rw [hdb]; rfl
      · rw [hdn]; rfl



theorem dsetParts_append (d : List (String × Part)) (k : String) (p : Part)
    (h : ∀ cp ∈ d, cp.1 ≠ k) : dsetParts d k p = d ++ [(k, p)] := by
  unfold dsetParts
  rw [if_neg]
  intro hs
  rw [List.find?_isSome] at hs
  obtain ⟨cp, hcp, hpred⟩ := hs
  exact h cp hcp (by simpa using hpred)

theorem flatParts_mem (bins : List (String × BinRecord)) (q : Part) :
    q ∈ flatParts bins ↔ ∃ nb ∈ bins, ∃ cp ∈ nb.2.parts, cp.2 = q := by
  unfold flatParts
  rw [List.mem_flatten]
  constructor
  · intro ⟨blk, hblk, hq⟩
    obtain ⟨nb, hnb, hblke⟩ := List.mem_map.mp hblk
    rw [← hblke] at hq
    obtain ⟨cp, hcp, hcpe⟩ := List.mem_map.mp hq
    exact ⟨nb, hnb, cp, hcp, hcpe⟩
  · intro ⟨nb, hnb, cp, hcp, hcpe⟩
    exact ⟨nb.2.parts.map Prod.snd, List.mem_map.mpr ⟨nb, hnb, rfl⟩,
      List.mem_map.mpr ⟨cp, hcp, hcpe⟩⟩

theorem aggregate_preserves (eng : Engine) (now : Int) (AR : List RegexRule)
    (processed : List Part) (p : Part) (bins bins1 : List (String × BinRecord))
    (a : ClassifyAccept)
    (hres : (classifyPart eng now (partSlots AR p) p).2.2 = .ok (some a))
    (hagg : aggregate bins p a = .ok bins1)
    (hA5 : ∀ nb ∈ bins, nb.2.name = nb.1)
    (hA6 : ∀ nb ∈ bins, ∀ cp ∈ nb.2.parts, cp.2 ∈ processed ∧
       ∃ b, (classifyPart eng now (partSlots AR cp.2) cp.2).2.2 = .ok (some b) ∧
            b.name = nb.1 ∧ b.current = cp.1)
    (hsep : ∀ q ∈ processed,
       ¬ ∃ b, (classifyPart eng now (partSlots AR q) q).2.2 = .ok (some b) ∧
              b.name = a.name ∧ b.current = a.current) :
    (∀ nb ∈ bins1, nb.2.name = nb.1) ∧
    (∀ nb ∈ bins1, ∀ cp ∈ nb.2.parts, (cp.2 ∈ processed ∨ cp.2 = p) ∧
       ∃ b, (classifyPart eng now (partSlots AR cp.2) cp.2).2.2 = .ok (some b) ∧
            b.name = nb.1 ∧ b.current = cp.1) ∧
    (∀ q ∈ flatParts bins, q ∈ flatParts bins1) ∧
    p ∈ flatParts bins1 := by
  rcases hf : bins.find? (fun nb => nb.1 = a.name) with _ | nb0
  · -- no entry with this name yet: a new record is appended
    simp only [aggregate, hf] at hagg
    simp at hagg
    rcases hint : pyInt a.total with e | t <;> rw [hint] at hagg
    · exact absurd hagg (by simp)
    · have hb1 : bins1 = bins ++
          [(a.name, ⟨a.name, p.posted, p.posted_by, p.group_name, p.xref, a.regId, t,
            [(a.current, p)]⟩)] := by
        injection hagg with h2
        exact h2.symm
      subst hb1
      refine ⟨?_, ?_, ?_, ?_⟩
      · intro nb hnb
        rcases List.mem_append.mp hnb with h | h
        · exact hA5 nb h
        · simp at h
          rw [h]
      · intro nb hnb cp hcp
        rcases List.mem_append.mp hnb with h | h
        · obtain ⟨hmem, b, hb, hbn, hbc⟩ := hA6 nb h cp hcp
          exact ⟨Or.inl hmem, b, hb, hbn, hbc⟩
        · simp at h
          rw [h] at hcp
          simp at hcp
          rw [hcp]
          exact ⟨Or.inr rfl, a, hres, by rw [h], rfl⟩
      · intro q hq
        rw [flatParts_mem] at hq ⊢
        obtain ⟨nb, hnb, cp, hcp, hcpe⟩ := hq
        exact ⟨nb, List.mem_append_left _ hnb, cp, hcp, hcpe⟩
      · rw [flatParts_mem]
        refine ⟨_, List.mem_append_right _ (List.mem_singleton_self _), (a.current, p), ?_, rfl⟩
        simp
  · -- an entry exists: the part is attached under its current index
    simp only [aggregate, hf] at hagg
    simp at hagg
    have hb1 : bins1 = bins.map (fun nb =>
        if nb.1 = a.name then (nb.1, { nb.2 with parts := dsetParts nb.2.parts a.current p })
        else nb) := hagg.symm
    subst hb1
    have happend : ∀ nb ∈ bins, nb.1 = a.name →
        dsetParts nb.2.parts a.current p = nb.2.parts ++ [(a.current, p)] := by
      intro nb hnb hname
      apply dsetParts_append
      intro cp hcp hk
      obtain ⟨hmem, b, hb, hbn, hbc⟩ := hA6 nb hnb cp hcp
      exact hsep cp.2 hmem ⟨b, hb, by rw [hbn, hname], by rw [hbc, hk]⟩
    refine ⟨?_, ?_, ?_, ?_⟩
    · intro nb1 hnb1
      obtain ⟨nb, hnb, hfe⟩ := List.mem_map.mp hnb1
      by_cases hn : nb.1 = a.name
      · rw [if_pos hn] at hfe
        rw [← hfe]
        exact hA5 nb hnb
      · rw [if_neg hn] at hfe
        rw [← hfe]
        exact hA5 nb hnb
    · intro nb1 hnb1 cp hcp
      obtain ⟨nb, hnb, hfe⟩ := List.mem_map.mp hnb1
      by_cases hn : nb.1 = a.name
      · rw [if_pos hn] at hfe
        rw [← hfe] at hcp
        simp only [] at hcp
        rw [happend nb hnb hn] at hcp
        rcases List.mem_append.mp hcp with h | h
        · obtain ⟨hmem, b, hb, hbn, hbc⟩ := hA6 nb hnb cp h
          refine ⟨Or.inl hmem, b, hb, ?_, hbc⟩
          rw [hbn, ← hfe]
        · simp at h
          rw [h]
          refine ⟨Or.inr rfl, a, hres, ?_, rfl⟩
          rw [← hfe]
          simp [hn]
      · rw [if_neg hn] at hfe
        rw [← hfe] at hcp
        obtain ⟨hmem, b, hb, hbn, hbc⟩ := hA6 nb hnb cp hcp
        refine ⟨Or.inl hmem, b, hb, ?_, hbc⟩
        rw [hbn, ← hfe]
    · intro q hq
      rw [flatParts_mem] at hq ⊢
      obtain ⟨nb, hnb, cp, hcp, hcpe⟩ := hq
      by_cases hn : nb.1 = a.name
      · refine ⟨(nb.1, { nb.2 with parts := dsetParts nb.2.parts a.current p }),
          ?_, cp, ?_, hcpe⟩
        · exact List.mem_map.mpr ⟨nb, hnb, by rw [if_pos hn]⟩
        · simp only []
          rw [happend nb hnb hn]
          exact List.mem_append_left _ hcp
      · exact ⟨nb, List.mem_map.mpr ⟨nb, hnb, by rw [if_neg hn]⟩, cp, hcp, hcpe⟩
    · have hnb0 := List.find?_some hf
      have hnb0m := List.mem_of_find?_eq_some hf
      have hn : nb0.1 = a.name := by simpa using hnb0
      rw [flatParts_mem]
      refine ⟨(nb0.1, { nb0.2 with parts := dsetParts nb0.2.parts a.current p }),
        List.mem_map.mpr ⟨nb0, hnb0m, by rw [if_pos hn]⟩, (a.current, p), ?_, rfl⟩
      simp only []
      rw [happend nb0 hnb0m hn]
      exact List.mem_append_right _ (List.mem_singleton_self _)




theorem nodup_ids_front (stream pre rest : List Part) (p : Part)
    (hstream : stream = pre ++ p :: rest)
    (hnd : (stream.map (fun q => q.id)).Nodup) :
    ∀ q ∈ pre, q.id ≠ p.id := by
  subst hstream
  intro q hq heq
  rw [List.map_append, List.nodup_append] at hnd
  exact hnd.2.2 (List.mem_map.mpr ⟨q, hq, rfl⟩) (by rw [heq]; simp)

theorem processParts_inv (eng : Engine) (now : Int) (AR : List RegexRule) (db0 : DB)
    (stream : List Part)
    (hnd : (stream.map (fun q => q.id)).Nodup)
    (hnodup : ∀ p ∈ stream, ∀ q ∈ stream, p.id ≠ q.id →
       ∀ a b, (classifyPart eng now (partSlots AR p) p).2.2 = .ok (some a) →
              (classifyPart eng now (partSlots AR q) q).2.2 = .ok (some b) →
              ¬(a.name = b.name ∧ a.current = b.current)) :
    ∀ suf pre st st1, stream = pre ++ suf →
      runInv eng now AR db0 pre st →
      processParts eng now AR suf st = .ok st1 →
      runInv eng now AR db0 stream st1 := by
  intro suf
  induction suf with
  | nil =>
      intro pre st st1 hstream hinv h
      unfold processParts at h
      injection h with h2
      subst h2
      rw [hstream, List.append_nil]
      exact hinv
  | cons p rest ih =>
      intro pre st st1 hstream hinv h
      obtain ⟨hA1, hA2, hA3, hA4, hA5, hA6, hA7⟩ := hinv
      unfold processParts at h
      rcases hpp : processPart eng now AR st p with e | st2 <;> rw [hpp] at h
      · exact absurd h (by simp)
      · refine ih (pre ++ [p]) st2 st1 (by rw [hstream, List.append_assoc]; rfl) ?_ h
        rcases hres : (classifyPart eng now (partSlots AR p) p).2.2 with e | oa
        · rw [processPart_classify_error eng now AR st p e hres] at hpp
          exact absurd hpp (by simp)
        · cases oa with
          | none =>
              rw [processPart_ok_none eng now AR st p hres hA4] at hpp
              injection hpp with hpp2
              subst hpp2
              refine ⟨by simpa [partBookkeeping] using hA1, by simpa [partBookkeeping] using hA2,
                by simpa [partBookkeeping] using hA3, by simpa [partBookkeeping] using hA4,
                ?_, ?_, ?_⟩
              · intro nb hnb
                exact hA5 nb (by simpa [partBookkeeping] using hnb)
              · intro nb hnb cp hcp
                obtain ⟨hmem, b, hb, hbn, hbc⟩ := hA6 nb (by simpa [partBookkeeping] using hnb) cp hcp
                exact ⟨List.mem_append_left _ hmem, b, hb, hbn, hbc⟩
              · intro q hq b hb
                rcases List.mem_append.mp hq with hq' | hq'
                · have := hA7 q hq' b hb
                  simpa [partBookkeeping] using this
                · simp at hq'
                  subst hq'
                  rw [hres] at hb
                  exact absurd hb (by simp)
          | some a =>
              rcases hagg : aggregate st.binaries p a with e | bins1
              · simp only [processPart, hres, hagg] at hpp
                exact absurd hpp (by simp)
              · rw [processPart_ok_some eng now AR st p a bins1 hres hagg hA4] at hpp
                injection hpp with hpp2
                subst hpp2
                have hsep : ∀ q ∈ pre,
                    ¬ ∃ b, (classifyPart eng now (partSlots AR q) q).2.2 = .ok (some b) ∧
                           b.name = a.name ∧ b.current = a.current := by
                  intro q hq ⟨b, hb, hbn, hbc⟩
                  have hqs : q ∈ stream := by
                    rw [hstream]; exact List.mem_append_left _ hq
                  have hps : p ∈ stream := by
                    rw [hstream]; exact List.mem_append_right _ (List.mem_cons_self _ _)
                  exact hnodup q hqs p hps (nodup_ids_front stream pre rest p hstream hnd q hq)
                    b a hb hres ⟨hbn, hbc⟩
                obtain ⟨hB5, hB6, hBmono, hBp⟩ := aggregate_preserves eng now AR pre p
                  st.binaries bins1 a hres hagg hA5 hA6 hsep
                refine ⟨by simpa [partBookkeeping] using hA1, by simpa [partBookkeeping] using hA2,
                  by simpa [partBookkeeping] using hA3, by simpa [partBookkeeping] using hA4,
                  ?_, ?_, ?_⟩
                · intro nb hnb
                  exact hB5 nb (by simpa using hnb)
                · intro nb hnb cp hcp
                  obtain ⟨hmem, b, hb, hbn, hbc⟩ := hB6 nb (by simpa using hnb) cp hcp
                  rcases hmem with hm | hm
                  · exact ⟨List.mem_append_left _ hm, b, hb, hbn, hbc⟩
                  · exact ⟨List.mem_append_right _ (by simp [hm]), b, hb, hbn, hbc⟩
                · intro q hq b hb
                  rcases List.mem_append.mp hq with hq' | hq'
                  · have := hA7 q hq' b hb
                    simpa using hBmono q this
                  · simp at hq'
                    subst hq'
                    rw [hres] at hb
                    have hba : b = a := (Option.some.inj (Except.ok.inj hb)).symm
                    subst hba
                    simpa using hBp



theorem processPart_rules (eng : Engine) (now : Int) (AR : List RegexRule)
    (st st1 : LoopState) (p : Part)
    (h : processPart eng now AR st p = .ok st1) (hc : st.count = 0) :
    ∀ r ∈ st1.db.rules, r ∈ st.db.rules := by
  rcases hres : (classifyPart eng now (partSlots AR p) p).2.2 with e | oa
  · rw [processPart_classify_error eng now AR st p e hres] at h
    exact absurd h (by simp)
  · cases oa with
    | none =>
        rw [processPart_ok_none eng now AR st p hres hc] at h
        injection h with h2
        subst h2
        intro r hr
        exact removeRuleEvents_subset _ _ r (by simpa [partBookkeeping] using hr)
    | some a =>
        rcases hagg : aggregate st.binaries p a with e | bins1
        · simp only [processPart, hres, hagg] at h
          exact absurd h (by simp)
        · rw [processPart_ok_some eng now AR st p a bins1 hres hagg hc] at h
          injection h with h2
          subst h2
          intro r hr
          exact removeRuleEvents_subset _ _ r (by simpa [partBookkeeping] using hr)

theorem processParts_rules_subset (eng : Engine) (now : Int) (AR : List RegexRule) :
    ∀ ps st st1, processParts eng now AR ps st = .ok st1 → st.count = 0 →
      ∀ r ∈ st1.db.rules, r ∈ st.db.rules := by
  intro ps
  induction ps with
  | nil =>
      intro st st1 h hc
      unfold processParts at h
      injection h with h2
      subst h2
      exact fun r hr => hr
  | cons p rest ih =>
      intro st st1 h hc
      unfold processParts at h
      rcases hpp : processPart eng now AR st p with e | st2 <;> rw [hpp] at h
      · exact absurd h (by simp)
      · intro r hr
        have hc2 : st2.count = 0 := (processPart_count eng now AR st st2 p hpp hc).1
        exact processPart_rules eng now AR st st2 p hpp hc r (ih st2 st1 h hc2 r hr)

theorem run1_facts (eng : Engine) (now : Int) (db : DB) (r1 : RunResult)
    (hids : (db.parts.map (fun q => q.id)).Nodup)
    (hnodup : ∀ p ∈ partStream db, ∀ q ∈ partStream db, p.id ≠ q.id →
       ∀ a b, (classifyPart eng now (partSlots (loadedRules db) p) p).2.2 = .ok (some a) →
              (classifyPart eng now (partSlots (loadedRules db) q) q).2.2 = .ok (some b) →
              ¬(a.name = b.name ∧ a.current = b.current))
    (h1 : process eng now db = .ok r1) :
    ∃ U : List (Nat × Nat),
      r1.db.parts = db.parts.map (updFun U) ∧
      (∀ q ∈ partStream db, ∀ a,
         (classifyPart eng now (partSlots (loadedRules db) q) q).2.2 = .ok (some a) →
         ∃ bid, (q.id, bid) ∈ U) ∧
      (∀ pid bid, (pid, bid) ∈ U →
         ∃ q ∈ partStream db, q.id = pid ∧
           ∃ a, (classifyPart eng now (partSlots (loadedRules db) q) q).2.2 = .ok (some a)) ∧
      (∀ r ∈ r1.db.rules, r ∈ db.rules) ∧
      (∀ q ∈ partStream db, ∀ e,
         (classifyPart eng now (partSlots (loadedRules db) q) q).2.2 ≠ .error e) := by
  have hnd : ((partStream db).map (fun q => q.id)).Nodup :=
    hids.sublist ((List.filter_sublist _).map _)
  unfold process at h1
  rcases hp : processParts eng now (loadedRules db) (partStream db) ⟨db, [], 0, 0, 0, [], []⟩
    with e | st <;> rw [hp] at h1
  · exact absurd h1 (by simp)
  · injection h1 with h2
    subst h2
    have hinv0 : runInv eng now (loadedRules db) db [] ⟨db, [], 0, 0, 0, [], []⟩ := by
      refine ⟨rfl, rfl, rfl, rfl, ?_, ?_, ?_⟩
      · intro nb hnb; simp at hnb
      · intro nb hnb; simp at hnb
      · intro q hq; simp at hq
    obtain ⟨hA1, hA2, hA3, hA4, hA5, hA6, hA7⟩ :=
      processParts_inv eng now (loadedRules db) db (partStream db) hnd hnodup
        (partStream db) [] ⟨db, [], 0, 0, 0, [], []⟩ st rfl hinv0 hp
    refine ⟨(saveUpdates (saveE2 st.db st.binaries) st.binaries).1, ?_, ?_, ?_, ?_, ?_⟩
    · show (save st.db st.binaries).1.parts = _
      rw [save_parts_eq, hA1]
    · intro q hq a ha
      exact save_updates_cover st.db st.binaries hA5 q (hA7 q hq a ha)
    · intro pid bid hmem
      obtain ⟨nb, hnb, cp, hcp, hcpe⟩ := save_updates_domain st.db st.binaries pid bid hmem
      obtain ⟨hm, b, hb, _, _⟩ := hA6 nb hnb cp hcp
      exact ⟨cp.2, hm, hcpe, b, hb⟩
    · intro r hr
      have h3 : (save st.db st.binaries).1.rules = st.db.rules := save_rules_eq st.db st.binaries
      have hr2 : r ∈ st.db.rules := by rw [← h3]; exact hr
      exact processParts_rules_subset eng now (loadedRules db) (partStream db) _ st hp rfl r hr2
    · intro q hq e
      exact processParts_no_error eng now (loadedRules db) (partStream db) _ st hp q hq e



/-- C6 amended: idempotence holds provided no two distinct unclaimed
parts' accepted matches carry the same (binary-name, current-index) pair
— the aggregator's last-write-wins overwrite is then never exercised.
Under that proviso (and distinct part ids), running `process` twice over
the same static backlog at the same reference time leaves the second
run's database with exactly the first run's parts (so the same
part-to-binary assignments and zero additional claims) and exactly the
first run's binaries. -/
theorem c6_idempotence_amended (eng : Engine) (now : Int) (db : DB) (r1 r2 : RunResult)
    (hids : (db.parts.map (fun q => q.id)).Nodup)
    (hnodup : ∀ p ∈ partStream db, ∀ q ∈ partStream db, p.id ≠ q.id →
       ∀ a b, outcome eng now db p = .ok (some a) → outcome eng now db q = .ok (some b) →
       ¬(a.name = b.name ∧ a.current = b.current))
    (h1 : process eng now db = .ok r1)
    (h2 : process eng now r1.db = .ok r2) :
    r2.db.parts = r1.db.parts ∧ r2.db.binaries = r1.db.binaries := by
  obtain ⟨U, hparts, hcover, hdomain, hrules, hnoerr⟩ :=
    run1_facts eng now db r1 hids hnodup h1
  have hgroups : relevantGroups r1.db = relevantGroups db := by
    unfold relevantGroups
    rw [hparts, List.map_map]
    congr 1
    exact List.map_congr_left (fun q _ => updFun_group U q)
  have hall : ∀ p ∈ partStream r1.db,
      (classifyPart eng now (partSlots (loadedRules r1.db) p) p).2.2 = .ok none := by
    intro p hp
    obtain ⟨hpmem, hpnone⟩ := (partStream_mem r1.db p).mp hp
    rw [hparts] at hpmem
    obtain ⟨q, hq, hqe⟩ := List.mem_map.mp hpmem
    have hqq : updFun U q = q := updFun_none_eq U q (by rw [hqe]; exact hpnone)
    have hpq : p = q := by rw [← hqe, hqq]
    subst hpq
    have hpstream : p ∈ partStream db :=
      (partStream_mem db p).mpr ⟨hq, hpnone⟩
    have hqnone : (classifyPart eng now (partSlots (loadedRules db) p) p).2.2 = .ok none := by
      rcases hout : (classifyPart eng now (partSlots (loadedRules db) p) p).2.2 with e | oa
      · exact absurd hout (hnoerr p hpstream e)
      · cases oa with
        | none => rfl
        | some a =>
            exfalso
            obtain ⟨bid, hbid⟩ := hcover p hpstream a hout
            have := updFun_isSome_of_mem U p bid hbid
            rw [hqq] at this
            rw [hpnone] at this
            simp at this
    rcases hclq : classifyPart eng now (partSlots (loadedRules db) p) p with ⟨es, os, resq⟩
    have hresq : resq = .ok none := by rw [hclq] at hqnone; simpa using hqnone
    have hcont := classify_none_all_cont eng now p (partSlots (loadedRules db) p) es os
      (by rw [← hresq]; exact hclq)
    apply classify_all_cont_none
    intro s hs
    obtain ⟨r, hr, hse⟩ := List.mem_map.mp hs
    have hrdb : r ∈ loadedRules db := by
      rw [loadedRules_mem] at hr ⊢
      refine ⟨hrules r hr.1, ?_⟩
      rw [← hgroups]
      exact hr.2
    have hs1 : (if r.group_name = p.group_name ∨ r.group_name = ".*" then some r else none)
        ∈ partSlots (loadedRules db) p :=
      List.mem_map.mpr ⟨r, hrdb, rfl⟩
    obtain ⟨r0, ev, orph, hsome, hcont0⟩ := hcont _ hs1
    by_cases hsc : r.group_name = p.group_name ∨ r.group_name = ".*"
    · rw [if_pos hsc] at hsome
      have hr0 : r0 = r := by injection hsome with h'; exact h'.symm
      subst hr0
      exact ⟨r0, ev, orph, by rw [← hse, if_pos hsc], hcont0⟩
    · rw [if_neg hsc] at hsome
      exact absurd hsome (by simp)
  obtain ⟨stf, hrun2, hbin2, hp2, hb2, hn2, hc2⟩ :=
    processParts_all_none eng now (loadedRules r1.db) (partStream r1.db)
      ⟨r1.db, [], 0, 0, 0, [], []⟩ hall rfl
  have hproc2 : process eng now r1.db
      = .ok ⟨(save stf.db stf.binaries).1, stf.events ++ (save stf.db stf.binaries).2,
             stf.totalProcessed, stf.totalBinaries + stf.binaries.length, stf.orphans⟩ := by
    unfold process
    rw [hrun2]
  rw [hproc2] at h2
  injection h2 with h2e
  subst h2e
  rw [hbin2]
  simp only []
  rw [save_nil stf.db]
  exact ⟨hp2, hb2⟩






/-- C6 witness: a one-part backlog that is claimed by the first run;
the second run changes nothing. -/
theorem c6_idempotence_amended_witness :
    process engSameName 0 dbOnePart = .ok runOnce ∧
    process engSameName 0 runOnce.db = .ok runTwice ∧
    runTwice.db.parts = runOnce.db.parts ∧ runTwice.db.binaries = runOnce.db.binaries := by
  have hnodup : ∀ p ∈ partStream dbOnePart, ∀ q ∈ partStream dbOnePart, p.id ≠ q.id →
      ∀ a b, outcome engSameName 0 dbOnePart p = .ok (some a) →
             outcome engSameName 0 dbOnePart q = .ok (some b) →
             ¬(a.name = b.name ∧ a.current = b.current) := by
    intro p hp q hq hne a b _ _
    exfalso
    have hp1 : p = ⟨1, "g", "s1", 0, "u", "xr", none⟩ := by
      have : partStream dbOnePart = [⟨1, "g", "s1", 0, "u", "xr", none⟩] := rfl
      rw [this] at hp
      simpa using hp
    have hq1 : q = ⟨1, "g", "s1", 0, "u", "xr", none⟩ := by
      have : partStream dbOnePart = [⟨1, "g", "s1", 0, "u", "xr", none⟩] := rfl
      rw [this] at hq
      simpa using hq
    exact hne (by rw [hp1, hq1])
  have h := c6_idempotence_amended engSameName 0 dbOnePart runOnce runTwice
    (by decide) hnodup rfl rfl
  exact ⟨rfl, rfl, h.1, h.2⟩

end Pynab
